import Mathlib

/-!
Verification of the 2D Ising Monte Carlo engine of
`src/classical/ising_model.py` against its specification.

Embedding conventions.
The spin grid is a total function `ℤ → ℤ → ℤ`; only the cells with both
indices in `[0, L)` form the lattice, and all index arithmetic uses `Int.emod`,
which agrees with Python's `%` on the zero-test and on every in-range access
that occurs in the source.  Spins are the integers `±1` and the coupling `J`
and all energies are exact rationals: the Python float arithmetic on these
small integer combinations is exact, so `ℚ` is a faithful model of the
energy bookkeeping.  The Metropolis acceptance test compares a real uniform
draw `u` against `Real.exp`, exactly as `np.random.random() < np.exp(-beta*dE)`.
Randomness (numpy's implicit global generator) is modelled as an explicit
stream of `Attempt` records, one `(i, j, u)` triple per single-spin-flip
attempt; the distribution of the stream is outside the embedding.
-/

/-- The spin grid `self.spins`, as a total function on `ℤ × ℤ` indices. -/
abbrev Spins := ℤ → ℤ → ℤ

/-- The `SimulationConfig` dataclass. -/
structure SimulationConfig where
  L : ℤ
  J : ℚ
  n_thermalization : ℕ
  n_sweeps : ℕ
  sampling_interval : ℤ

/-- `np.random.choice([-1, 1], size=(L, L))`: each cell is filled with `+1`
or `-1` according to an abstract boolean choice stream. -/
def init_spins (choice : ℤ → ℤ → Bool) : Spins :=
  fun i j => if choice i j then 1 else -1

/-- `IsingModel2D.__init__`.  The constructor performs *no* configuration
validation: any `L ≥ 0` yields a lattice (for `L = 0` an empty `0×0` one);
the `none` branch models only the `ValueError` that numpy itself raises when
asked to allocate an array with a negative dimension. -/
def ising_init (config : SimulationConfig) (choice : ℤ → ℤ → Bool) : Option Spins :=
  if 0 ≤ config.L then some (init_spins choice) else none

/-- `self.spins[i, j] *= -1`: in-place negation of one cell (the spec's
`flip(i, j)`). -/
def flip_spin (s : Spins) (a b : ℤ) : Spins :=
  fun i j => if i = a ∧ j = b then -s i j else s i j

/-- `IsingModel2D.total_energy`: for every cell, the right and down periodic
neighbour bonds contribute `-J * s[i,j] * (right + down)`. -/
def total_energy (L : ℤ) (J : ℚ) (s : Spins) : ℚ :=
  ∑ i ∈ Finset.Ico (0 : ℤ) L, ∑ j ∈ Finset.Ico (0 : ℤ) L,
    -J * (s i j : ℚ) * ((s i ((j + 1) % L) : ℚ) + (s ((i + 1) % L) j : ℚ))

/-- `IsingModel2D.local_energy_change`:
`2 * J * s[i,j] * (sum of the four periodic neighbours)`. -/
def local_energy_change (L : ℤ) (J : ℚ) (s : Spins) (i j : ℤ) : ℚ :=
  2 * J * (s i j : ℚ) *
    ((s i ((j + 1) % L) + s i ((j - 1) % L) + s ((i + 1) % L) j + s ((i - 1) % L) j : ℤ) : ℚ)

/-- `IsingModel2D.magnetization`: `np.abs(np.sum(self.spins))`. -/
def magnetization (L : ℤ) (s : Spins) : ℚ :=
  ((|∑ i ∈ Finset.Ico (0 : ℤ) L, ∑ j ∈ Finset.Ico (0 : ℤ) L, s i j| : ℤ) : ℚ)

/-- The random draws consumed by one single-spin-flip attempt: the two
`np.random.randint(0, L)` cell indices and the `np.random.random()` uniform
number (the latter is only inspected when `ΔE > 0`). -/
structure Attempt where
  i : ℤ
  j : ℤ
  u : ℝ

open Classical in
/-- The body of the loop in `IsingModel2D.metropolis_sweep`: flip the chosen
cell iff `dE <= 0 or np.random.random() < np.exp(-beta * dE)`. -/
noncomputable def metropolis_attempt (L : ℤ) (J : ℚ) (beta : ℝ) (s : Spins) (a : Attempt) :
    Spins :=
  if local_energy_change L J s a.i a.j ≤ 0 ∨
      a.u < Real.exp (-beta * ((local_energy_change L J s a.i a.j : ℚ) : ℝ)) then
    flip_spin s a.i a.j
  else s

/-- `IsingModel2D.metropolis_sweep`: `for _ in range(self.N)` with
`self.N = L ** 2` single-spin-flip attempts fed by the random stream. -/
noncomputable def metropolis_sweep (L : ℤ) (J : ℚ) (beta : ℝ) (stream : ℕ → Attempt)
    (s : Spins) : Spins :=
  (List.range (L ^ 2).toNat).foldl (fun t n => metropolis_attempt L J beta t (stream n)) s

/-- An arbitrary finite sequence of `metropolis_sweep` calls, each with its
own inverse temperature and its own random stream. -/
noncomputable def run_sweeps (L : ℤ) (J : ℚ) (calls : List (ℝ × (ℕ → Attempt)))
    (s : Spins) : Spins :=
  calls.foldl (fun t c => metropolis_sweep L J c.1 c.2 t) s

/-- The line `beta = 1.0 / T` of `IsingModel2D.run_simulation`. -/
def run_beta (T : ℚ) : ℚ := 1 / T

/-- The state after the first `m` sweeps of a loop of `metropolis_sweep`
calls (one stream per sweep). -/
noncomputable def spins_after (L : ℤ) (J : ℚ) (beta : ℝ) (streams : ℕ → ℕ → Attempt)
    (m : ℕ) (s : Spins) : Spins :=
  (List.range m).foldl (fun t sw => metropolis_sweep L J beta (streams sw) t) s

/-- The sampling test `sweep % self.config.sampling_interval == 0` of the
measurement loop.  `Int.emod` has the same zero-set as Python's `%` for every
nonzero divisor, including negative ones. -/
def is_sample_sweep (k : ℤ) (sweep : ℕ) : Bool :=
  (sweep : ℤ) % k == 0

/-- The sweep indices of the measurement phase at which a sample is recorded. -/
def sample_indices (k : ℤ) (n : ℕ) : List ℕ :=
  (List.range n).filter (is_sample_sweep k)

/-- The measurement phase of `IsingModel2D.run_simulation`: sweep, then append
`(total_energy(), magnetization())` whenever the sweep index passes the
sampling test. -/
noncomputable def measure_loop (L : ℤ) (J : ℚ) (beta : ℝ) (k : ℤ)
    (streams : ℕ → ℕ → Attempt) (n : ℕ) (s : Spins) : Spins × List ℚ × List ℚ :=
  (List.range n).foldl
    (fun st sweep =>
      let s1 := metropolis_sweep L J beta (streams sweep) st.1
      if is_sample_sweep k sweep then
        (s1, st.2.1 ++ [total_energy L J s1], st.2.2 ++ [magnetization L s1])
      else (s1, st.2.1, st.2.2))
    (s, [], [])

/-- The thermalization phase of `IsingModel2D.run_simulation`:
`config.n_thermalization` discarded sweeps at `beta = 1.0 / T`. -/
noncomputable def post_thermalization (config : SimulationConfig) (T : ℚ)
    (tstreams : ℕ → ℕ → Attempt) (s : Spins) : Spins :=
  spins_after config.L config.J ((run_beta T : ℚ) : ℝ) tstreams config.n_thermalization s

/-- `IsingModel2D.run_simulation`: thermalize, then run the measurement loop
and return the `(energy, magnetization)` sample arrays. -/
noncomputable def run_simulation (config : SimulationConfig) (T : ℚ)
    (tstreams mstreams : ℕ → ℕ → Attempt) (s : Spins) : List ℚ × List ℚ :=
  (measure_loop config.L config.J ((run_beta T : ℚ) : ℝ) config.sampling_interval
    mstreams config.n_sweeps (post_thermalization config T tstreams s)).2

/-- `np.mean` on a 1-D array (exact rational model; `0` on the empty array). -/
def mean (xs : List ℚ) : ℚ := xs.sum / xs.length

/-- The dictionary returned by `compute_observables`. -/
structure Observables where
  C : ℚ
  chi : ℚ
  U4 : ℚ
  E_mean : ℚ
  M_mean : ℚ

/-- `compute_observables(data, T, N)`, with `E = data['energy']` and
`M = data['magnetization']` passed as explicit lists. -/
def compute_observables (E M : List ℚ) (T : ℚ) (N : ℤ) : Observables :=
  let beta := 1 / T
  let E_mean := mean E
  let E2_mean := mean (E.map (fun x => x ^ 2))
  let C := beta ^ 2 * (N : ℚ) * (E2_mean - E_mean ^ 2)
  let M_mean := mean M
  let M2_mean := mean (M.map (fun x => x ^ 2))
  let chi := beta * (N : ℚ) * (M2_mean - M_mean ^ 2)
  let M4_mean := mean (M.map (fun x => x ^ 4))
  let U4 := 1 - M4_mean / (3 * M2_mean ^ 2)
  { C := C, chi := chi, U4 := U4, E_mean := E_mean / (N : ℚ), M_mean := M_mean / (N : ℚ) }

/-- The observable formulas exactly as the specification words them:
`C = (1/T)² · N · (⟨E²⟩ − ⟨E⟩²)`, `χ = (1/T) · N · (⟨M²⟩ − ⟨M⟩²)`,
`U4 = 1 − ⟨M⁴⟩ / (3 ⟨M²⟩²)`, `⟨E⟩/N`, `⟨M⟩/N`. -/
def observables_spec (E M : List ℚ) (T : ℚ) (N : ℤ) : Observables :=
  { C := (1 / T) ^ 2 * (N : ℚ) * (mean (E.map (fun x => x ^ 2)) - (mean E) ^ 2)
    chi := (1 / T) * (N : ℚ) * (mean (M.map (fun x => x ^ 2)) - (mean M) ^ 2)
    U4 := 1 - mean (M.map (fun x => x ^ 4)) / (3 * (mean (M.map (fun x => x ^ 2))) ^ 2)
    E_mean := mean E / (N : ℚ)
    M_mean := mean M / (N : ℚ) }

/-- The mask-selection step of `identify_critical_band`: the temperatures at
exactly the positions whose `U4` value lies in the closed band
`[0.55, 0.65]` hard-coded in the source. -/
def critical_band_selection (U4_values T_values : List ℚ) : List ℚ :=
  ((U4_values.zip T_values).filter
    (fun p => decide ((0.55 : ℚ) ≤ p.1 ∧ p.1 ≤ (0.65 : ℚ)))).map Prod.snd

/-- `identify_critical_band(U4_values, T_values)`: if any `U4` lies in the
fixed band, return the min and max selected temperature, else `(None, None)`. -/
def identify_critical_band (U4_values T_values : List ℚ) : Option ℚ × Option ℚ :=
  if critical_band_selection U4_values T_values ≠ [] then
    ((critical_band_selection U4_values T_values).min?,
     (critical_band_selection U4_values T_values).max?)
  else (none, none)

/-- Modelled from the spec (for comparison with the source only): the
band-identification function with the *configurable* closed band `[low, high]`
that section 4.5 of the specification describes; the source has no such
parameters. -/
def band_identify (low high : ℚ) (U4_values T_values : List ℚ) : Option ℚ × Option ℚ :=
  if (((U4_values.zip T_values).filter
        (fun p => decide (low ≤ p.1 ∧ p.1 ≤ high))).map Prod.snd) ≠ [] then
    ((((U4_values.zip T_values).filter
        (fun p => decide (low ≤ p.1 ∧ p.1 ≤ high))).map Prod.snd).min?,
     (((U4_values.zip T_values).filter
        (fun p => decide (low ≤ p.1 ∧ p.1 ≤ high))).map Prod.snd).max?)
  else (none, none)

/-- The per-cell contribution of `total_energy`, with the leading `-J` factor
pulled out (proof-side regrouping of the same sum). -/
def bond_term (L : ℤ) (s : Spins) (i j : ℤ) : ℚ :=
  (s i j : ℚ) * ((s i ((j + 1) % L) : ℚ) + (s ((i + 1) % L) j : ℚ))

/-- The data-model invariant: every cell value is `+1` or `-1`. -/
def PMOne (s : Spins) : Prop := ∀ i j, s i j = 1 ∨ s i j = -1

/-! ### Helper lemmas: periodic index arithmetic -/

lemma emod_add_shift (L x c : ℤ) : (x % L + c) % L = (x + c) % L := by
  have h : x % L + c = x + c + L * (-(x / L)) := by rw [Int.emod_def]; ring
  rw [h, Int.add_mul_emod_self_left]

lemma succ_emod_ne (L b : ℤ) (hL : 2 ≤ L) (hb : 0 ≤ b) (hb' : b < L) : (b + 1) % L ≠ b := by
  rcases lt_or_eq_of_le (by omega : b + 1 ≤ L) with h | h
  · rw [Int.emod_eq_of_lt (by omega) h]; omega
  · rw [h, Int.emod_self]; omega

lemma pred_emod_add_one (L b : ℤ) (hb : 0 ≤ b) (hb' : b < L) :
    ((b - 1) % L + 1) % L = b := by
  rw [emod_add_shift]
  have h : b - 1 + 1 = b := by ring
  rw [h, Int.emod_eq_of_lt hb hb']

lemma pred_emod_ne (L b : ℤ) (hL : 2 ≤ L) (hb : 0 ≤ b) (hb' : b < L) : (b - 1) % L ≠ b := by
  intro h
  have h2 := pred_emod_add_one L b hb hb'
  rw [h] at h2
  exact succ_emod_ne L b hL hb hb' h2

lemma eq_pred_of_succ_emod (L x y : ℤ) (hx : 0 ≤ x) (hx' : x < L) (h : (x + 1) % L = y) :
    x = (y - 1) % L := by
  rw [← h, sub_eq_add_neg, emod_add_shift]
  have h2 : x + 1 + -1 = x := by ring
  rw [h2, Int.emod_eq_of_lt hx hx']

lemma emod_mem_Ico (L x : ℤ) (hL : 0 < L) : x % L ∈ Finset.Ico (0 : ℤ) L := by
  rw [Finset.mem_Ico]
  exact ⟨Int.emod_nonneg x (by omega), Int.emod_lt_of_pos x hL⟩

/-! ### Helper lemmas: the flipped grid and the bond regrouping -/

lemma flip_spin_self (s : Spins) (a b : ℤ) : flip_spin s a b a b = -s a b := by
  simp [flip_spin]

lemma flip_spin_ne (s : Spins) (a b i j : ℤ) (h : ¬(i = a ∧ j = b)) :
    flip_spin s a b i j = s i j := by
  simp only [flip_spin, if_neg h]

lemma total_energy_eq_bond_sum (L : ℤ) (J : ℚ) (s : Spins) :
    total_energy L J s =
      -J * ∑ p ∈ Finset.Ico (0 : ℤ) L ×ˢ Finset.Ico (0 : ℤ) L, bond_term L s p.1 p.2 := by
  unfold total_energy bond_term
  rw [← Finset.sum_product', Finset.mul_sum]
  exact Finset.sum_congr rfl fun p _ => by ring

/-- Claim C1, amended to lattices with `L ≥ 2`: for every spin grid with
values in `{-1, +1}` and every in-range cell `(a, b)`,
`local_energy_change(a, b)` equals `total_energy()` after flipping the cell
minus `total_energy()` before.  (For `L = 1` the identity fails, see the
counterexample: the cell is its own periodic neighbour and the incremental
formula double-counts.) -/
theorem local_energy_change_eq_total_energy_diff (L : ℤ) (J : ℚ) (s : Spins)
    (hL : 2 ≤ L) (hs : ∀ i j, s i j = 1 ∨ s i j = -1)
    (a b : ℤ) (ha0 : 0 ≤ a) (haL : a < L) (hb0 : 0 ≤ b) (hbL : b < L) :
    local_energy_change L J s a b =
      total_energy L J (flip_spin s a b) - total_energy L J s := by
  have hLpos : (0 : ℤ) < L := by omega
  have hamem : a ∈ Finset.Ico (0 : ℤ) L := Finset.mem_Ico.mpr ⟨ha0, haL⟩
  have hbmem : b ∈ Finset.Ico (0 : ℤ) L := Finset.mem_Ico.mpr ⟨hb0, hbL⟩
  have hj0mem : (b - 1) % L ∈ Finset.Ico (0 : ℤ) L := emod_mem_Ico L (b - 1) hLpos
  have hi0mem : (a - 1) % L ∈ Finset.Ico (0 : ℤ) L := emod_mem_Ico L (a - 1) hLpos
  have hj0ne : (b - 1) % L ≠ b := pred_emod_ne L b hL hb0 hbL
  have hi0ne : (a - 1) % L ≠ a := pred_emod_ne L a hL ha0 haL
  have hj0succ : ((b - 1) % L + 1) % L = b := pred_emod_add_one L b hb0 hbL
  have hi0succ : ((a - 1) % L + 1) % L = a := pred_emod_add_one L a ha0 haL
  have hbsne : (b + 1) % L ≠ b := succ_emod_ne L b hL hb0 hbL
  have hasne : (a + 1) % L ≠ a := succ_emod_ne L a hL ha0 haL
  rw [total_energy_eq_bond_sum L J (flip_spin s a b), total_energy_eq_bond_sum L J s,
    ← mul_sub, ← Finset.sum_sub_distrib]
  have hsum :
      ∑ p ∈ Finset.Ico (0 : ℤ) L ×ˢ Finset.Ico (0 : ℤ) L,
          (bond_term L (flip_spin s a b) p.1 p.2 - bond_term L s p.1 p.2) =
        -2 * (s a b : ℚ) * ((s a ((b + 1) % L) : ℚ) + (s ((a + 1) % L) b : ℚ)
          + (s a ((b - 1) % L) : ℚ) + (s ((a - 1) % L) b : ℚ)) := by
    have hTsub :
        (insert ((a : ℤ), (b : ℤ)) (insert (a, (b - 1) % L) {((a - 1) % L, b)}) :
            Finset (ℤ × ℤ)) ⊆ Finset.Ico (0 : ℤ) L ×ˢ Finset.Ico (0 : ℤ) L := by
      intro p hp
      simp only [Finset.mem_insert, Finset.mem_singleton] at hp
      rcases hp with h | h | h <;> subst h <;> rw [Finset.mem_product]
      · exact ⟨hamem, hbmem⟩
      · exact ⟨hamem, hj0mem⟩
      · exact ⟨hi0mem, hbmem⟩
    have hzero : ∀ p ∈ Finset.Ico (0 : ℤ) L ×ˢ Finset.Ico (0 : ℤ) L,
        p ∉ (insert ((a : ℤ), (b : ℤ)) (insert (a, (b - 1) % L) {((a - 1) % L, b)}) :
            Finset (ℤ × ℤ)) →
        bond_term L (flip_spin s a b) p.1 p.2 - bond_term L s p.1 p.2 = 0 := by
      rintro ⟨i, j⟩ hp hpT
      simp only [Finset.mem_insert, Finset.mem_singleton, Prod.mk.injEq, not_or] at hpT
      obtain ⟨hp1, hp2, hp3⟩ := hpT
      have hjmem := (Finset.mem_product.mp hp).2
      have himem := (Finset.mem_product.mp hp).1
      rw [Finset.mem_Ico] at hjmem himem
      unfold bond_term
      rw [flip_spin_ne s a b i j (by tauto)]
      rw [flip_spin_ne s a b i ((j + 1) % L) ?hr]
      case hr =>
        rintro ⟨hia, hjb⟩
        exact hp2 ⟨hia, eq_pred_of_succ_emod L j b hjmem.1 hjmem.2 hjb⟩
      rw [flip_spin_ne s a b ((i + 1) % L) j ?hd]
      case hd =>
        rintro ⟨hia, hjb⟩
        exact hp3 ⟨eq_pred_of_succ_emod L i a himem.1 himem.2 hia, hjb⟩
      ring
    rw [← Finset.sum_subset hTsub hzero]
    have hne1 : ((a : ℤ), (b : ℤ)) ∉
        (insert ((a : ℤ), (b - 1) % L) {(((a : ℤ) - 1) % L, b)} : Finset (ℤ × ℤ)) := by
      simp only [Finset.mem_insert, Finset.mem_singleton, Prod.mk.injEq, not_or]
      exact ⟨fun h => hj0ne h.2.symm, fun h => hi0ne h.1.symm⟩
    have hne2 : ((a : ℤ), ((b : ℤ) - 1) % L) ∉ ({(((a : ℤ) - 1) % L, b)} : Finset (ℤ × ℤ)) := by
      simp only [Finset.mem_singleton, Prod.mk.injEq, not_and]
      intro h
      exact absurd h.symm hi0ne
    rw [Finset.sum_insert hne1, Finset.sum_insert hne2, Finset.sum_singleton]
    have e1 : bond_term L (flip_spin s a b) a b - bond_term L s a b =
        -2 * (s a b : ℚ) * ((s a ((b + 1) % L) : ℚ) + (s ((a + 1) % L) b : ℚ)) := by
      unfold bond_term
      rw [flip_spin_self,
        flip_spin_ne s a b a ((b + 1) % L) (fun h => hbsne h.2),
        flip_spin_ne s a b ((a + 1) % L) b (fun h => hasne h.1)]
      push_cast
      ring
    have e2 : bond_term L (flip_spin s a b) a ((b - 1) % L) - bond_term L s a ((b - 1) % L) =
        -2 * (s a b : ℚ) * (s a ((b - 1) % L) : ℚ) := by
      unfold bond_term
      rw [flip_spin_ne s a b a ((b - 1) % L) (fun h => hj0ne h.2), hj0succ, flip_spin_self,
        flip_spin_ne s a b ((a + 1) % L) ((b - 1) % L) (fun h => hasne h.1)]
      push_cast
      ring
    have e3 : bond_term L (flip_spin s a b) ((a - 1) % L) b - bond_term L s ((a - 1) % L) b =
        -2 * (s a b : ℚ) * (s ((a - 1) % L) b : ℚ) := by
      unfold bond_term
      rw [flip_spin_ne s a b ((a - 1) % L) b (fun h => hi0ne h.1),
        flip_spin_ne s a b ((a - 1) % L) ((b + 1) % L) (fun h => hi0ne h.1),
        hi0succ, flip_spin_self]
      push_cast
      ring
    rw [e1, e2, e3]
    ring
  rw [hsum]
  unfold local_energy_change
  push_cast
  ring

/-- Witness for C1: the amended theorem applied to the all-up `2 × 2` lattice
at cell `(0, 0)`. -/
theorem local_energy_change_eq_total_energy_diff_witness :
    local_energy_change 2 1 (fun _ _ => 1) 0 0 =
      total_energy 2 1 (flip_spin (fun _ _ => 1) 0 0) - total_energy 2 1 (fun _ _ => 1) :=
  local_energy_change_eq_total_energy_diff 2 1 (fun _ _ => 1) (by norm_num)
    (fun _ _ => Or.inl rfl) 0 0 (by norm_num) (by norm_num) (by norm_num) (by norm_num)

/-- Counterexample to C1 as stated: on the `1 × 1` all-up lattice the
incremental formula returns `8J = 8` while a flip leaves `total_energy`
unchanged (the difference is `0`). -/
theorem local_energy_change_diff_fails_at_L1 :
    local_energy_change 1 1 (fun _ _ => 1) 0 0 ≠
      total_energy 1 1 (flip_spin (fun _ _ => 1) 0 0) - total_energy 1 1 (fun _ _ => 1) := by
  have hIco : Finset.Ico (0 : ℤ) 1 = {0} := by decide
  norm_num [local_energy_change, total_energy, flip_spin, hIco]

/-- Claim C10. -/
theorem local_energy_change_bounded (L : ℤ) (J : ℚ) (s : Spins) (hL : 0 < L)
    (hs : ∀ i j, s i j = 1 ∨ s i j = -1) (i j : ℤ)
    (hi0 : 0 ≤ i) (hiL : i < L) (hj0 : 0 ≤ j) (hjL : j < L) :
    (local_energy_change L J s i j = -(8 * J) ∨ local_energy_change L J s i j = -(4 * J) ∨
      local_energy_change L J s i j = 0 ∨ local_energy_change L J s i j = 4 * J ∨
      local_energy_change L J s i j = 8 * J) ∧
    |local_energy_change L J s i j| ≤ 8 * |J| := by
  obtain ⟨m, hm5, he⟩ : ∃ m : ℤ, (m = -4 ∨ m = -2 ∨ m = 0 ∨ m = 2 ∨ m = 4) ∧
      local_energy_change L J s i j = 2 * J * (m : ℚ) := by
    refine ⟨s i j * (s i ((j + 1) % L) + s i ((j - 1) % L)
        + s ((i + 1) % L) j + s ((i - 1) % L) j), ?_, ?_⟩
    · rcases hs i j with h | h <;> rcases hs i ((j + 1) % L) with h1 | h1 <;>
        rcases hs i ((j - 1) % L) with h2 | h2 <;> rcases hs ((i + 1) % L) j with h3 | h3 <;>
        rcases hs ((i - 1) % L) j with h4 | h4 <;> rw [h, h1, h2, h3, h4] <;> decide
    · unfold local_energy_change
      push_cast
      ring
  constructor
  · rcases hm5 with h | h | h | h | h <;> rw [he, h] <;> push_cast
    · exact Or.inl (by ring)
    · exact Or.inr (Or.inl (by ring))
    · exact Or.inr (Or.inr (Or.inl (by ring)))
    · exact Or.inr (Or.inr (Or.inr (Or.inl (by ring))))
    · exact Or.inr (Or.inr (Or.inr (Or.inr (by ring))))
  · have hm4 : |((m : ℤ) : ℚ)| ≤ 4 := by
      rcases hm5 with h | h | h | h | h <;> rw [h] <;> norm_num
    rw [he, abs_mul, abs_mul, abs_two]
    nlinarith [abs_nonneg J, abs_nonneg ((m : ℤ) : ℚ), hm4]

/-- Witness for C10. -/
theorem local_energy_change_bounded_witness :
    |local_energy_change 2 1 (fun _ _ => 1) 0 0| ≤ 8 * |(1 : ℚ)| :=
  (local_energy_change_bounded 2 1 (fun _ _ => 1) (by norm_num) (fun _ _ => Or.inl rfl) 0 0
    (by norm_num) (by norm_num) (by norm_num) (by norm_num)).2

/-- Claim C2. -/
theorem metropolis_sweep_correct (L : ℤ) (J : ℚ) (beta : ℝ) (stream : ℕ → Attempt)
    (s : Spins) :
    (metropolis_sweep L J beta stream s =
        ((List.range (L ^ 2).toNat).map stream).foldl (metropolis_attempt L J beta) s ∧
      ((List.range (L ^ 2).toNat).map stream).length = (L ^ 2).toNat) ∧
    ∀ (t : Spins) (a : Attempt),
      (local_energy_change L J t a.i a.j ≤ 0 →
          metropolis_attempt L J beta t a = flip_spin t a.i a.j) ∧
      (0 < local_energy_change L J t a.i a.j →
        (a.u < Real.exp (-beta * ((local_energy_change L J t a.i a.j : ℚ) : ℝ)) →
            metropolis_attempt L J beta t a = flip_spin t a.i a.j) ∧
        (¬ a.u < Real.exp (-beta * ((local_energy_change L J t a.i a.j : ℚ) : ℝ)) →
            metropolis_attempt L J beta t a = t)) := by
  refine ⟨⟨?_, by simp⟩, ?_⟩
  · unfold metropolis_sweep
    rw [List.foldl_map]
  · intro t a
    refine ⟨fun hle => ?_, fun hpos => ⟨fun hu => ?_, fun hu => ?_⟩⟩
    · unfold metropolis_attempt
      rw [if_pos (Or.inl hle)]
    · unfold metropolis_attempt
      rw [if_pos (Or.inr hu)]
    · unfold metropolis_attempt
      rw [if_neg ?hc]
      case hc =>
        rintro (hle | hlt)
        · exact absurd hle (not_le.mpr hpos)
        · exact hu hlt

/-- Witness for C2. -/
theorem metropolis_sweep_correct_witness :
    metropolis_attempt 2 1 0 (fun i j => if (i + j) % 2 = 0 then 1 else -1) ⟨0, 0, 0⟩ =
      flip_spin (fun i j => if (i + j) % 2 = 0 then 1 else -1) 0 0 :=
  ((metropolis_sweep_correct 2 1 0 (fun _ => ⟨0, 0, 0⟩)
      (fun i j => if (i + j) % 2 = 0 then 1 else -1)).2
    (fun i j => if (i + j) % 2 = 0 then 1 else -1) ⟨0, 0, 0⟩).1
    (by norm_num [local_energy_change])

lemma pmone_flip_spin {s : Spins} (h : PMOne s) (a b : ℤ) : PMOne (flip_spin s a b) := by
  intro i j
  unfold flip_spin
  split
  · rcases h i j with h1 | h1 <;> rw [h1] <;> norm_num
  · exact h i j

lemma pmone_attempt (L : ℤ) (J : ℚ) (beta : ℝ) {s : Spins} (h : PMOne s) (a : Attempt) :
    PMOne (metropolis_attempt L J beta s a) := by
  unfold metropolis_attempt
  split
  · exact pmone_flip_spin h a.i a.j
  · exact h

lemma pmone_foldl {α : Type*} (f : Spins → α → Spins)
    (hf : ∀ s x, PMOne s → PMOne (f s x)) :
    ∀ (l : List α) (s : Spins), PMOne s → PMOne (l.foldl f s) := by
  intro l
  induction l with
  | nil => exact fun s h => h
  | cons a t ih => exact fun s h => ih (f s a) (hf s a h)

lemma pmone_sweep (L : ℤ) (J : ℚ) (beta : ℝ) (stream : ℕ → Attempt) {s : Spins}
    (h : PMOne s) : PMOne (metropolis_sweep L J beta stream s) :=
  pmone_foldl _ (fun t n ht => pmone_attempt L J beta ht (stream n)) _ s h

/-- Claim C8. -/
theorem spins_pm_one_invariant (L : ℤ) (J : ℚ) (choice : ℤ → ℤ → Bool)
    (calls : List (ℝ × (ℕ → Attempt))) (hL : 0 < L) :
    PMOne (init_spins choice) ∧ PMOne (run_sweeps L J calls (init_spins choice)) := by
  have h0 : PMOne (init_spins choice) := by
    intro i j
    unfold init_spins
    split
    · exact Or.inl rfl
    · exact Or.inr rfl
  exact ⟨h0, pmone_foldl _ (fun t c ht => pmone_sweep L J c.1 c.2 ht) calls _ h0⟩

/-- Witness for C8. -/
theorem spins_pm_one_invariant_witness :
    run_sweeps 2 1 [] (init_spins fun _ _ => true) 0 0 = 1 ∨
      run_sweeps 2 1 [] (init_spins fun _ _ => true) 0 0 = -1 :=
  (spins_pm_one_invariant 2 1 (fun _ _ => true) [] (by norm_num)).2 0 0

/-- Claim C3: on non-degenerate inputs the returned record is exactly the
specification's formulas (and, being a Lean function, it is pure). -/
theorem compute_observables_formulas (E M : List ℚ) (T : ℚ) (N : ℤ)
    (hE : E ≠ []) (hM : M ≠ []) (hT : 0 < T) :
    compute_observables E M T N = observables_spec E M T N := rfl

/-- Witness for C3. -/
theorem compute_observables_formulas_witness :
    compute_observables [1] [1] 1 1 = observables_spec [1] [1] 1 1 :=
  compute_observables_formulas [1] [1] 1 1 (by norm_num) (by norm_num) (by norm_num)

/-! ### Helper lemmas: list variance -/

lemma sum_sq_shift (l : List ℚ) (c : ℚ) :
    (l.map (fun x => (x - c) ^ 2)).sum
      = (l.map (fun x => x ^ 2)).sum - 2 * c * l.sum + l.length * c ^ 2 := by
  induction l with
  | nil => simp
  | cons a t ih =>
    simp only [List.map_cons, List.sum_cons, ih, List.length_cons]
    push_cast
    ring

lemma sum_sq_nonneg (l : List ℚ) (c : ℚ) : 0 ≤ (l.map (fun x => (x - c) ^ 2)).sum := by
  refine List.sum_nonneg ?_
  intro x hx
  simp only [List.mem_map] at hx
  obtain ⟨y, -, rfl⟩ := hx
  positivity

lemma mean_sq_le_mean_sq_map (l : List ℚ) (h : l ≠ []) :
    (mean l) ^ 2 ≤ mean (l.map (fun x => x ^ 2)) := by
  have hn : (0 : ℚ) < (l.length : ℚ) := by
    exact_mod_cast List.length_pos.mpr h
  have h0 := sum_sq_nonneg l (mean l)
  rw [sum_sq_shift] at h0
  have hμ : l.sum = (l.length : ℚ) * mean l := by
    unfold mean
    field_simp
  rw [hμ] at h0
  have hgoal : mean (l.map fun x => x ^ 2) = (l.map (fun x => x ^ 2)).sum / (l.length : ℚ) := by
    unfold mean
    rw [List.length_map]
  rw [hgoal, le_div_iff hn]
  nlinarith [h0]

lemma mean_sq_map_nonneg (l : List ℚ) : 0 ≤ mean (l.map (fun x => x ^ 2)) := by
  unfold mean
  apply div_nonneg
  · refine List.sum_nonneg ?_
    intro x hx
    simp only [List.mem_map] at hx
    obtain ⟨y, -, rfl⟩ := hx
    positivity
  · positivity

/-- Claim C7. -/
theorem heat_capacity_susceptibility_nonneg (E M : List ℚ) (T : ℚ) (N : ℤ)
    (hE : E ≠ []) (hM : M ≠ []) (hT : 0 < T) (hN : 0 ≤ N) :
    0 ≤ (compute_observables E M T N).C ∧ 0 ≤ (compute_observables E M T N).chi := by
  have hE2 := mean_sq_le_mean_sq_map E hE
  have hM2 := mean_sq_le_mean_sq_map M hM
  have hNq : (0 : ℚ) ≤ (N : ℚ) := by exact_mod_cast hN
  have hTq : (0 : ℚ) < 1 / T := by positivity
  constructor
  · show 0 ≤ (1 / T) ^ 2 * (N : ℚ) * (mean (E.map (fun x => x ^ 2)) - (mean E) ^ 2)
    apply mul_nonneg (mul_nonneg (by positivity) hNq)
    linarith
  · show 0 ≤ (1 / T) * (N : ℚ) * (mean (M.map (fun x => x ^ 2)) - (mean M) ^ 2)
    apply mul_nonneg (mul_nonneg (le_of_lt hTq) hNq)
    linarith

/-- Witness for C7. -/
theorem heat_capacity_susceptibility_nonneg_witness :
    0 ≤ (compute_observables [1] [1] 1 1).C ∧ 0 ≤ (compute_observables [1] [1] 1 1).chi :=
  heat_capacity_susceptibility_nonneg [1] [1] 1 1 (by norm_num) (by norm_num) (by norm_num)
    (by norm_num)

/-- Claim C6, amended: the upper bound `U4 ≤ 2/3` holds for every sample set
with `⟨M²⟩ ≠ 0`; the claimed lower bound `0 ≤ U4` is false in general (see
the counterexample). -/
theorem binder_cumulant_upper_bound (E M : List ℚ) (T : ℚ) (N : ℤ)
    (hM : M ≠ []) (hT : 0 < T) (hM2 : mean (M.map (fun x => x ^ 2)) ≠ 0) :
    (compute_observables E M T N).U4 ≤ 2 / 3 := by
  have h4 : (mean (M.map (fun x => x ^ 2))) ^ 2 ≤ mean (M.map (fun x => x ^ 4)) := by
    have h := mean_sq_le_mean_sq_map (M.map (fun x => x ^ 2)) (by simpa using hM)
    rw [List.map_map] at h
    have hcomp : ((fun x : ℚ => x ^ 2) ∘ fun x : ℚ => x ^ 2) = fun x : ℚ => x ^ 4 := by
      funext x
      simp
      ring
    rw [hcomp] at h
    exact h
  have hμ2pos : 0 < mean (M.map (fun x => x ^ 2)) :=
    lt_of_le_of_ne (mean_sq_map_nonneg M) (Ne.symm hM2)
  show 1 - mean (M.map (fun x => x ^ 4)) / (3 * (mean (M.map (fun x => x ^ 2))) ^ 2) ≤ 2 / 3
  have h3 : (0 : ℚ) < 3 * (mean (M.map (fun x => x ^ 2))) ^ 2 := by positivity
  have hfrac : (1 : ℚ) / 3 ≤ mean (M.map (fun x => x ^ 4))
      / (3 * (mean (M.map (fun x => x ^ 2))) ^ 2) := by
    rw [div_le_div_iff (by norm_num) h3]
    nlinarith [h4]
  linarith

/-- Witness for C6's amended theorem. -/
theorem binder_cumulant_upper_bound_witness :
    (compute_observables [0] [1, 1] 2 4).U4 ≤ 2 / 3 :=
  binder_cumulant_upper_bound [0] [1, 1] 2 4 (by simp) (by norm_num)
    (by norm_num [mean])

/-- Counterexample to C6 as stated: the sample set `M = [0, 0, 0, 1]` is
non-degenerate (`⟨M²⟩ = 1/4 ≠ 0`) yet `U4 = 1 − (1/4)/(3·(1/16)) = −1/3 < 0`. -/
theorem binder_cumulant_lower_bound_cex :
    mean ([0, 0, 0, 1].map (fun x => x ^ 2)) ≠ 0 ∧
      (compute_observables [0] [0, 0, 0, 1] 2 64).U4 < 0 := by
  constructor
  · norm_num [mean]
  · norm_num [compute_observables, mean]

/-- Claim C4, amended: the band is hard-coded to `[0.55, 0.65]` (not
configurable).  With that band: if no `U4` value lies in the band the result
is `(none, none)` (the not-found outcome, no exception path exists);
otherwise the result is `(some tl, some th)` where `tl` and `th` are the
minimum and maximum temperature over exactly the in-band positions. -/
theorem identify_critical_band_band_behavior (U4_values T_values : List ℚ)
    (h : U4_values.length = T_values.length) :
    (critical_band_selection U4_values T_values = [] →
      identify_critical_band U4_values T_values = (none, none)) ∧
    (critical_band_selection U4_values T_values ≠ [] →
      ∃ tl th, identify_critical_band U4_values T_values = (some tl, some th) ∧
        tl ∈ critical_band_selection U4_values T_values ∧
        th ∈ critical_band_selection U4_values T_values ∧
        ∀ t ∈ critical_band_selection U4_values T_values, tl ≤ t ∧ t ≤ th) := by
  constructor
  · intro hempty
    unfold identify_critical_band
    rw [if_neg]
    simp [hempty]
  · intro hne
    obtain ⟨tl, htl⟩ : ∃ tl, (critical_band_selection U4_values T_values).min? = some tl := by
      cases hmin : (critical_band_selection U4_values T_values).min? with
      | none => exact absurd (List.min?_eq_none_iff.mp hmin) hne
      | some tl => exact ⟨tl, rfl⟩
    obtain ⟨th, hth⟩ : ∃ th, (critical_band_selection U4_values T_values).max? = some th := by
      cases hmax : (critical_band_selection U4_values T_values).max? with
      | none => exact absurd (List.max?_eq_none_iff.mp hmax) hne
      | some th => exact ⟨th, rfl⟩
    refine ⟨tl, th, ?_, ?_, ?_, ?_⟩
    · unfold identify_critical_band
      rw [if_pos hne, htl, hth]
    · exact List.min?_mem (fun a b => min_choice a b) htl
    · exact List.max?_mem (fun a b => max_choice a b) hth
    · intro t ht
      constructor
      · exact (List.le_min?_iff (fun a b c => le_min_iff) htl).mp (le_refl tl) t ht
      · exact (List.max?_le_iff (fun a b c => max_le_iff) hth).mp (le_refl th) t ht

/-- Witness for C4: a scan whose single `U4` value lies outside the band is
reported as not-found. -/
theorem identify_critical_band_band_behavior_witness :
    identify_critical_band [1/20] [1] = (none, none) :=
  (identify_critical_band_band_behavior [1/20] [1] rfl).1 (by norm_num [critical_band_selection])

/-- Counterexample to C4 as stated: the source function takes no band
parameters; for the band `[0, 0.1]` of the claim's "configurable closed
band" reading, the spec-modelled configurable function returns
`(some 1, some 1)` on `U4 = [1/20]`, `T = [1]`, while the source function,
whose band is fixed at `[0.55, 0.65]`, returns `(none, none)`. -/
theorem identify_critical_band_fixed_band_cex :
    identify_critical_band [1/20] [1] ≠ band_identify 0 (1/10) [1/20] [1] := by
  have h1 : identify_critical_band [1/20] [1] = (none, none) := by
    norm_num [identify_critical_band, critical_band_selection]
  have h2 : band_identify 0 (1/10) [1/20] [1] = (some 1, some 1) := by
    norm_num [band_identify]
  rw [h1, h2]
  simp

/-- Claim C5 exhibit (the claim is a code bug): no configuration validation
exists.  `__init__` accepts `L = 0` and builds the (empty) lattice;
`run_simulation` computes `beta = 1/T` for `T = -1` and proceeds; a negative
`sampling_interval = -20` passes the sampling test at sweep 20 instead of
being rejected (it silently acts as its absolute value). -/
theorem no_configuration_validation :
    ising_init ⟨0, 1, 1000, 8000, 20⟩ (fun _ _ => true) =
        some (init_spins (fun _ _ => true)) ∧
      run_beta (-1) = -1 ∧
      is_sample_sweep (-20) 20 = true := by
  refine ⟨?_, by norm_num [run_beta], by decide⟩
  unfold ising_init
  rw [if_pos]
  norm_num

/-! ### Helper lemmas: the measurement loop -/

lemma spins_after_succ (L : ℤ) (J : ℚ) (beta : ℝ) (streams : ℕ → ℕ → Attempt) (n : ℕ)
    (s : Spins) :
    spins_after L J beta streams (n + 1) s =
      metropolis_sweep L J beta (streams n) (spins_after L J beta streams n s) := by
  unfold spins_after
  rw [List.range_succ, List.foldl_append, List.foldl_cons, List.foldl_nil]

lemma measure_loop_eq (L : ℤ) (J : ℚ) (beta : ℝ) (k : ℤ) (streams : ℕ → ℕ → Attempt)
    (s : Spins) (n : ℕ) :
    measure_loop L J beta k streams n s =
      (spins_after L J beta streams n s,
       (sample_indices k n).map
         (fun i => total_energy L J (spins_after L J beta streams (i + 1) s)),
       (sample_indices k n).map
         (fun i => magnetization L (spins_after L J beta streams (i + 1) s))) := by
  induction n with
  | zero => rfl
  | succ n ih =>
    have hstep : measure_loop L J beta k streams (n + 1) s =
        (fun st sweep =>
          let s1 := metropolis_sweep L J beta (streams sweep) st.1
          if is_sample_sweep k sweep then
            (s1, st.2.1 ++ [total_energy L J s1], st.2.2 ++ [magnetization L s1])
          else (s1, st.2.1, st.2.2)) (measure_loop L J beta k streams n s) n := by
      unfold measure_loop
      rw [List.range_succ, List.foldl_append, List.foldl_cons, List.foldl_nil]
    rw [hstep, ih]
    unfold sample_indices
    rw [List.range_succ, List.filter_append]
    cases hn : is_sample_sweep k n with
    | true =>
      simp only [List.filter_cons, List.filter_nil, hn, if_true, List.map_append,
        List.map_cons, List.map_nil, spins_after_succ]
    | false =>
      simp only [List.filter_cons, List.filter_nil, hn, Bool.false_eq_true, if_false,
        List.append_nil, spins_after_succ]

lemma is_sample_sweep_iff (k : ℤ) (hk : 1 ≤ k) (n : ℕ) :
    is_sample_sweep k n = true ↔ n % k.toNat = 0 := by
  unfold is_sample_sweep
  rw [beq_iff_eq]
  have hcast : k = (k.toNat : ℤ) := (Int.toNat_of_nonneg (by omega)).symm
  conv_lhs => rw [hcast, ← Int.natCast_mod, Int.natCast_eq_zero]

lemma ceil_div_succ (kk n : ℕ) (hkk : 0 < kk) :
    (n + 1 + kk - 1) / kk = (n + kk - 1) / kk + if n % kk = 0 then 1 else 0 := by
  have h1 : n + 1 + kk - 1 = n + kk := by omega
  rw [h1, Nat.add_div_right _ hkk]
  by_cases h : n % kk = 0
  · rw [if_pos h]
    obtain ⟨q, hq⟩ := Nat.dvd_of_mod_eq_zero h
    subst hq
    have ha : kk * q / kk = q := Nat.mul_div_cancel_left q hkk
    have hb : (kk * q + kk - 1) / kk = q := by
      have h2 : kk * q + kk - 1 = kk * q + (kk - 1) := by omega
      rw [h2, Nat.mul_add_div hkk, Nat.div_eq_of_lt (show kk - 1 < kk by omega)]
      omega
    rw [ha, hb]
  · rw [if_neg h]
    have hm : n % kk < kk := Nat.mod_lt n hkk
    have hdm := Nat.div_add_mod n kk
    have hb : (n + kk - 1) / kk = n / kk + 1 := by
      have h3 : kk * (n / kk + 1) = kk * (n / kk) + kk := by ring
      have h2 : n + kk - 1 = kk * (n / kk + 1) + (n % kk - 1) := by omega
      rw [h2, Nat.mul_add_div hkk, Nat.div_eq_of_lt (show n % kk - 1 < kk by omega)]
    rw [hb]

lemma sample_indices_length (k : ℤ) (hk : 1 ≤ k) (n : ℕ) :
    (sample_indices k n).length = (n + k.toNat - 1) / k.toNat := by
  have hkk : 0 < k.toNat := by omega
  induction n with
  | zero =>
    have h0 : (0 + k.toNat - 1) / k.toNat = 0 := by
      rw [Nat.zero_add]
      exact Nat.div_eq_of_lt (by omega)
    rw [h0]
    rfl
  | succ n ih =>
    unfold sample_indices at ih ⊢
    rw [List.range_succ, List.filter_append, List.length_append, ih, ceil_div_succ _ _ hkk]
    congr 1
    cases hn : is_sample_sweep k n with
    | true =>
      rw [if_pos ((is_sample_sweep_iff k hk n).mp hn)]
      simp [List.filter_cons, hn]
    | false =>
      rw [if_neg (fun hmod => by
        have hcontra := (is_sample_sweep_iff k hk n).mpr hmod
        rw [hn] at hcontra
        exact Bool.false_ne_true hcontra)]
      simp [List.filter_cons, hn]

lemma sample_indices_mem (k : ℤ) (hk : 1 ≤ k) (n : ℕ) (i : ℕ) :
    i ∈ sample_indices k n ↔ i < n ∧ ∃ m : ℕ, i = k.toNat * m := by
  unfold sample_indices
  rw [List.mem_filter, List.mem_range]
  constructor
  · rintro ⟨hlt, hp⟩
    refine ⟨hlt, ?_⟩
    obtain ⟨m, hm⟩ := Nat.dvd_of_mod_eq_zero ((is_sample_sweep_iff k hk i).mp hp)
    exact ⟨m, hm⟩
  · rintro ⟨hlt, m, rfl⟩
    exact ⟨hlt, (is_sample_sweep_iff k hk _).mpr (Nat.mul_mod_right _ _)⟩

/-- Claim C9. -/
theorem run_simulation_sampling (config : SimulationConfig) (T : ℚ)
    (tstreams mstreams : ℕ → ℕ → Attempt) (s : Spins)
    (hk : 1 ≤ config.sampling_interval) :
    (run_simulation config T tstreams mstreams s).1 =
      (sample_indices config.sampling_interval config.n_sweeps).map
        (fun i => total_energy config.L config.J
          (spins_after config.L config.J ((run_beta T : ℚ) : ℝ) mstreams (i + 1)
            (post_thermalization config T tstreams s))) ∧
    (run_simulation config T tstreams mstreams s).2 =
      (sample_indices config.sampling_interval config.n_sweeps).map
        (fun i => magnetization config.L
          (spins_after config.L config.J ((run_beta T : ℚ) : ℝ) mstreams (i + 1)
            (post_thermalization config T tstreams s))) ∧
    (run_simulation config T tstreams mstreams s).1.length =
      (config.n_sweeps + config.sampling_interval.toNat - 1)
        / config.sampling_interval.toNat ∧
    (run_simulation config T tstreams mstreams s).2.length =
      (config.n_sweeps + config.sampling_interval.toNat - 1)
        / config.sampling_interval.toNat ∧
    ∀ i : ℕ, i ∈ sample_indices config.sampling_interval config.n_sweeps ↔
      i < config.n_sweeps ∧ ∃ m : ℕ, i = config.sampling_interval.toNat * m := by
  have hml := measure_loop_eq config.L config.J ((run_beta T : ℚ) : ℝ)
    config.sampling_interval mstreams (post_thermalization config T tstreams s) config.n_sweeps
  unfold run_simulation
  rw [hml]
  dsimp only
  refine ⟨rfl, rfl, ?_, ?_, fun i => sample_indices_mem _ hk _ i⟩
  · rw [List.length_map]
    exact sample_indices_length _ hk _
  · rw [List.length_map]
    exact sample_indices_length _ hk _

/-- Witness for C9: a two-sweep run at `sampling_interval = 1` records
exactly `⌈2/1⌉ = 2` energy samples. -/
theorem run_simulation_sampling_witness :
    (run_simulation ⟨2, 1, 0, 2, 1⟩ 2 (fun _ _ => ⟨0, 0, 0⟩) (fun _ _ => ⟨0, 0, 0⟩)
        (fun _ _ => 1)).1.length =
      (2 + (1 : ℤ).toNat - 1) / (1 : ℤ).toNat :=
  (run_simulation_sampling ⟨2, 1, 0, 2, 1⟩ 2 (fun _ _ => ⟨0, 0, 0⟩) (fun _ _ => ⟨0, 0, 0⟩)
    (fun _ _ => 1) (by decide)).2.2.1
